import Mathlib

/-!
Shallow embedding of the Bitcoin-style transaction codec in `src/lib.rs`:
the `CompactSize` varint, `OutPoint`, `Script`, `TransactionInput` and
`BitcoinTransaction` types with their `to_bytes` / `from_bytes` functions,
followed by proofs of the specification's claims about them.

Modelling conventions:
- a byte is a `Nat` (`< 256` on the well-formed domain), a buffer a `List Nat`;
- Rust `u64` / 64-bit `usize` arithmetic is `Nat` arithmetic, reduced modulo
  `2 ^ 64` exactly where the source can overflow (the `size_len + script_len`
  addition in `Script::from_bytes`, whose operand `script_len` is a decoded,
  peer-controlled `u64`; every other `usize` quantity in the source is bounded
  by a slice length, hence below `isize::MAX`, and cannot overflow);
- a Rust panic (arithmetic overflow in debug builds, out-of-range slice index
  in release builds) is the explicit outcome `DResult.panic`;
- `Result<(T, usize), BitcoinError>` is `DResult T`.
-/

/-- The codec's error type (`BitcoinError` in the source). -/
inductive BitcoinError where
  | InsufficientBytes
  | InvalidFormat
deriving DecidableEq, Repr

/-- Outcome of a decode call: `ok v n` models `Ok((v, n))`, `err e` models
`Err(e)`, and `panic` models a Rust panic. -/
inductive DResult (α : Type) where
  | ok : α → Nat → DResult α
  | err : BitcoinError → DResult α
  | panic : DResult α
deriving DecidableEq, Repr

/-- The modulus of Rust `u64` and 64-bit `usize` arithmetic. -/
def U64 : Nat := 2 ^ 64

/-- The little-endian bytes of `v`, `w` bytes wide: Rust `to_le_bytes` on the
`w`-byte unsigned integer holding `v`'s low `8 * w` bits. -/
def leBytes : Nat → Nat → List Nat
  | 0, _ => []
  | w + 1, v => v % 256 :: leBytes w (v / 256)

/-- The value of a little-endian byte list: Rust `from_le_bytes`. -/
def leVal : List Nat → Nat
  | [] => 0
  | b :: bs => b + 256 * leVal bs

/-- `CompactSize` from the source; the `u64` field `value` is a `Nat`, with
`value < U64` carried as a hypothesis where it matters. -/
structure CompactSize where
  value : Nat
deriving DecidableEq, Repr

/-- `CompactSize::new`. -/
def CompactSize.new (value : Nat) : CompactSize :=
  ⟨value⟩

/-- `CompactSize::to_bytes`. `self.value as u8` is `% 256` (a no-op in the
branch that uses it, where `value < 0xFD`). -/
def CompactSize.to_bytes (s : CompactSize) : List Nat :=
  if s.value < 0xFD then [s.value % 256]
  else if s.value ≤ 0xFFFF then 0xFD :: leBytes 2 s.value
  else if s.value ≤ 0xFFFFFFFF then 0xFE :: leBytes 4 s.value
  else 0xFF :: leBytes 8 s.value

/-- `CompactSize::from_bytes`. The source matches exhaustively on the `u8`
tag; a model tag `≥ 0x100` cannot occur in a byte buffer and falls into the
`0xFF` arm. -/
def CompactSize.from_bytes (bytes : List Nat) : DResult CompactSize :=
  match bytes with
  | [] => .err .InsufficientBytes
  | tag :: rest =>
    if tag ≤ 0xFC then .ok (CompactSize.new tag) 1
    else if tag = 0xFD then
      if (tag :: rest).length < 3 then .err .InsufficientBytes
      else .ok (CompactSize.new (leVal (rest.take 2))) 3
    else if tag = 0xFE then
      if (tag :: rest).length < 5 then .err .InsufficientBytes
      else .ok (CompactSize.new (leVal (rest.take 4))) 5
    else
      if (tag :: rest).length < 9 then .err .InsufficientBytes
      else .ok (CompactSize.new (leVal (rest.take 8))) 9

/-- `Txid`: a 32-byte identifier (`pub [u8; 32]`); well-formedness
(`data.length = 32`) is carried as a hypothesis. -/
structure Txid where
  data : List Nat
deriving DecidableEq, Repr

/-- `OutPoint` from the source; `vout` is a `u32`. -/
structure OutPoint where
  txid : Txid
  vout : Nat
deriving DecidableEq, Repr

/-- `OutPoint::new`. -/
def OutPoint.new (txid : List Nat) (vout : Nat) : OutPoint :=
  ⟨⟨txid⟩, vout⟩

/-- `OutPoint::to_bytes`: the 32 txid bytes, then `vout` little-endian. -/
def OutPoint.to_bytes (p : OutPoint) : List Nat :=
  p.txid.data ++ leBytes 4 p.vout

/-- `OutPoint::from_bytes`. -/
def OutPoint.from_bytes (bytes : List Nat) : DResult OutPoint :=
  if bytes.length < 36 then .err .InsufficientBytes
  else .ok (OutPoint.new (bytes.take 32) (leVal ((bytes.drop 32).take 4))) 36

/-- `Script` from the source: an arbitrary byte blob. -/
structure Script where
  bytes : List Nat
deriving DecidableEq, Repr

/-- `Script::new`. -/
def Script.new (bytes : List Nat) : Script :=
  ⟨bytes⟩

/-- `Script::to_bytes`: the VarInt of the length, then the raw bytes.
`self.bytes.len() as u64` never truncates in Rust (a `Vec` holds at most
`isize::MAX < 2 ^ 63` bytes), so the model uses the length directly. -/
def Script.to_bytes (s : Script) : List Nat :=
  (CompactSize.new s.bytes.length).to_bytes ++ s.bytes

/-- `Script::from_bytes`. The source's `size_len + script_len` is 64-bit
`usize` arithmetic with a decoded `u64` operand: a release build wraps it
modulo `2 ^ 64` and then panics slicing `bytes[size_len..wrapped_end]` with
the start past the end (a debug build already panics at the addition); the
wrap happens exactly when `wrapped_end < size_len`, so both builds panic on
the same inputs, modelled by `DResult.panic`. The slice content
`bytes[size_len..size_len + script_len]` is `(drop size_len).take (end -
size_len)` of the buffer. -/
def Script.from_bytes (bytes : List Nat) : DResult Script :=
  match CompactSize.from_bytes bytes with
  | .err e => .err e
  | .panic => .panic
  | .ok compact_size size_len =>
    let script_len := compact_size.value
    let scriptEnd := (size_len + script_len) % U64
    if bytes.length < scriptEnd then .err .InsufficientBytes
    else if scriptEnd < size_len then .panic
    else .ok (Script.new ((bytes.drop size_len).take (scriptEnd - size_len))) scriptEnd

/-- `TransactionInput` from the source; `sequence` is a `u32`. -/
structure TransactionInput where
  previous_output : OutPoint
  script_sig : Script
  sequence : Nat
deriving DecidableEq, Repr

/-- `TransactionInput::new`. -/
def TransactionInput.new (previous_output : OutPoint) (script_sig : Script)
    (sequence : Nat) : TransactionInput :=
  ⟨previous_output, script_sig, sequence⟩

/-- `TransactionInput::to_bytes`. -/
def TransactionInput.to_bytes (i : TransactionInput) : List Nat :=
  i.previous_output.to_bytes ++ i.script_sig.to_bytes ++ leBytes 4 i.sequence

/-- `TransactionInput::from_bytes`: cursor-chained decode of the outpoint,
the script (against the sub-slice `&bytes[prev_out_len..]`), then the 4-byte
sequence. -/
def TransactionInput.from_bytes (bytes : List Nat) : DResult TransactionInput :=
  match OutPoint.from_bytes bytes with
  | .err e => .err e
  | .panic => .panic
  | .ok previous_output prev_out_len =>
    match Script.from_bytes (bytes.drop prev_out_len) with
    | .err e => .err e
    | .panic => .panic
    | .ok script_sig script_sig_len =>
      let sequence_start := prev_out_len + script_sig_len
      if bytes.length < sequence_start + 4 then .err .InsufficientBytes
      else
        .ok (TransactionInput.new previous_output script_sig
          (leVal ((bytes.drop sequence_start).take 4))) (sequence_start + 4)

/-- `BitcoinTransaction` from the source; `version` and `lock_time` are
`u32`. -/
structure BitcoinTransaction where
  version : Nat
  inputs : List TransactionInput
  lock_time : Nat
deriving DecidableEq, Repr

/-- `BitcoinTransaction::new`. -/
def BitcoinTransaction.new (version : Nat) (inputs : List TransactionInput)
    (lock_time : Nat) : BitcoinTransaction :=
  ⟨version, inputs, lock_time⟩

/-- `BitcoinTransaction::to_bytes`: version, VarInt input count, each input's
bytes in order, lock time. `self.inputs.len() as u64` never truncates for the
same reason as in `Script::to_bytes`. -/
def BitcoinTransaction.to_bytes (t : BitcoinTransaction) : List Nat :=
  leBytes 4 t.version ++ (CompactSize.new t.inputs.length).to_bytes
    ++ (t.inputs.map TransactionInput.to_bytes).flatten ++ leBytes 4 t.lock_time

/-- The decode loop of `BitcoinTransaction::from_bytes`
(`for _ in 0..input_count.value`): decode `n` inputs starting at `cursor`,
returning them together with the final cursor; `&bytes[cursor..]` is
`bytes.drop cursor` (the source maintains `cursor ≤ bytes.len()`, so the
slice never panics). -/
def decodeInputs (bytes : List Nat) : Nat → Nat → DResult (List TransactionInput)
  | 0, cursor => .ok [] cursor
  | n + 1, cursor =>
    match TransactionInput.from_bytes (bytes.drop cursor) with
    | .err e => .err e
    | .panic => .panic
    | .ok input input_len =>
      match decodeInputs bytes n (cursor + input_len) with
      | .err e => .err e
      | .panic => .panic
      | .ok inputs c => .ok (input :: inputs) c

/-- `BitcoinTransaction::from_bytes`: version, input count, `input_count.value`
iterations of the input decoder, then the 4-byte lock time. -/
def BitcoinTransaction.from_bytes (bytes : List Nat) : DResult BitcoinTransaction :=
  if bytes.length < 4 then .err .InsufficientBytes
  else
    match CompactSize.from_bytes (bytes.drop 4) with
    | .err e => .err e
    | .panic => .panic
    | .ok input_count count_len =>
      match decodeInputs bytes input_count.value (count_len + 4) with
      | .err e => .err e
      | .panic => .panic
      | .ok inputs cursor =>
        if bytes.length < cursor + 4 then .err .InsufficientBytes
        else
          .ok (BitcoinTransaction.new (leVal (bytes.take 4)) inputs
            (leVal ((bytes.drop cursor).take 4))) (cursor + 4)

/-- Rust representability of a `TransactionInput`: the txid is exactly 32
bytes, `vout` and `sequence` are `u32`, and the script blob fits in a `Vec`
(at most `isize::MAX < 2 ^ 63` bytes). -/
def TransactionInput.WF (i : TransactionInput) : Prop :=
  i.previous_output.txid.data.length = 32 ∧ i.previous_output.vout < 2 ^ 32 ∧
    i.script_sig.bytes.length < 2 ^ 63 ∧ i.sequence < 2 ^ 32

instance (i : TransactionInput) : Decidable i.WF := by
  unfold TransactionInput.WF; infer_instance

/-- Rust representability of a `BitcoinTransaction`: `version` and
`lock_time` are `u32`, the inputs vector fits in a `Vec`, and every input is
representable. -/
def BitcoinTransaction.WF (t : BitcoinTransaction) : Prop :=
  t.version < 2 ^ 32 ∧ t.lock_time < 2 ^ 32 ∧ t.inputs.length < 2 ^ 63 ∧
    ∀ i ∈ t.inputs, i.WF

instance (t : BitcoinTransaction) : Decidable t.WF := by
  unfold BitcoinTransaction.WF; infer_instance

/-- A concrete transaction input used by witnesses. -/
def sampleInput : TransactionInput :=
  TransactionInput.new (OutPoint.new (List.replicate 32 7) 3) (Script.new [1, 2, 3]) 4

/-- A concrete two-input transaction used by witnesses. -/
def sampleTx : BitcoinTransaction :=
  BitcoinTransaction.new 1
    [sampleInput,
     TransactionInput.new (OutPoint.new (List.replicate 32 9) 0) (Script.new []) 0xFFFFFFFF]
    99

/-! ### Little-endian helper lemmas -/

theorem leBytes_length (w v : Nat) : (leBytes w v).length = w := by
  induction w generalizing v with
  | zero => rfl
  | succ w ih => simp [leBytes, ih]

theorem leVal_leBytes (w v : Nat) : leVal (leBytes w v) = v % 2 ^ (8 * w) := by
  induction w generalizing v with
  | zero => simp [leBytes, leVal, Nat.mod_one]
  | succ w ih =>
    rw [show 8 * (w + 1) = 8 + 8 * w by omega, pow_add]
    simp only [leBytes, leVal, ih]
    rw [show (2 : Nat) ^ 8 = 256 by norm_num, Nat.mod_mul]

theorem leVal_leBytes_of_lt {w v : Nat} (h : v < 2 ^ (8 * w)) : leVal (leBytes w v) = v := by
  rw [leVal_leBytes]; exact Nat.mod_eq_of_lt h

/-! ### CompactSize: encoding shape and decoding branch lemmas -/

theorem cs_enc_1 {v : Nat} (h : v < 0xFD) : (CompactSize.new v).to_bytes = [v] := by
  simp [CompactSize.to_bytes, CompactSize.new, h, Nat.mod_eq_of_lt (show v < 256 by omega)]

theorem cs_enc_3 {v : Nat} (h1 : ¬ v < 0xFD) (h2 : v ≤ 0xFFFF) :
    (CompactSize.new v).to_bytes = 0xFD :: leBytes 2 v := by
  simp [CompactSize.to_bytes, CompactSize.new, h1, h2]

theorem cs_enc_5 {v : Nat} (h1 : ¬ v ≤ 0xFFFF) (h2 : v ≤ 0xFFFFFFFF) :
    (CompactSize.new v).to_bytes = 0xFE :: leBytes 4 v := by
  simp [CompactSize.to_bytes, CompactSize.new, show ¬ v < 0xFD by omega, h1, h2]

theorem cs_enc_9 {v : Nat} (h1 : ¬ v ≤ 0xFFFFFFFF) :
    (CompactSize.new v).to_bytes = 0xFF :: leBytes 8 v := by
  simp [CompactSize.to_bytes, CompactSize.new, show ¬ v < 0xFD by omega,
    show ¬ v ≤ 0xFFFF by omega, h1]

theorem cs_enc_length_le (v : Nat) : (CompactSize.new v).to_bytes.length ≤ 9 := by
  unfold CompactSize.to_bytes
  split_ifs <;> simp [leBytes_length]

theorem cs_enc_length_pos (v : Nat) : 0 < (CompactSize.new v).to_bytes.length := by
  unfold CompactSize.to_bytes
  split_ifs <;> simp [leBytes_length]

theorem cs_dec_small {tag : Nat} (rest : List Nat) (h : tag ≤ 0xFC) :
    CompactSize.from_bytes (tag :: rest) = .ok (CompactSize.new tag) 1 := by
  simp [CompactSize.from_bytes, h]

theorem cs_dec_fd_ok (rest : List Nat) (h : 2 ≤ rest.length) :
    CompactSize.from_bytes (0xFD :: rest) = .ok (CompactSize.new (leVal (rest.take 2))) 3 := by
  have h3 : ¬ ((0xFD :: rest : List Nat).length < 3) := by simp; omega
  simp [CompactSize.from_bytes, h3]
  omega

theorem cs_dec_fd_err (rest : List Nat) (h : rest.length < 2) :
    CompactSize.from_bytes (0xFD :: rest) = .err .InsufficientBytes := by
  have h3 : (0xFD :: rest : List Nat).length < 3 := by simp; omega
  simp [CompactSize.from_bytes, h3]
  omega

theorem cs_dec_fe_ok (rest : List Nat) (h : 4 ≤ rest.length) :
    CompactSize.from_bytes (0xFE :: rest) = .ok (CompactSize.new (leVal (rest.take 4))) 5 := by
  have h5 : ¬ ((0xFE :: rest : List Nat).length < 5) := by simp; omega
  simp [CompactSize.from_bytes, h5]
  omega

theorem cs_dec_fe_err (rest : List Nat) (h : rest.length < 4) :
    CompactSize.from_bytes (0xFE :: rest) = .err .InsufficientBytes := by
  have h5 : (0xFE :: rest : List Nat).length < 5 := by simp; omega
  simp [CompactSize.from_bytes, h5]
  omega

theorem cs_dec_hi_ok {tag : Nat} (rest : List Nat) (h1 : ¬ tag ≤ 0xFC) (h2 : tag ≠ 0xFD)
    (h3 : tag ≠ 0xFE) (h : 8 ≤ rest.length) :
    CompactSize.from_bytes (tag :: rest) = .ok (CompactSize.new (leVal (rest.take 8))) 9 := by
  have h9 : ¬ ((tag :: rest : List Nat).length < 9) := by simp; omega
  simp [CompactSize.from_bytes, h1, h2, h3, h9]
  omega

theorem cs_dec_hi_err {tag : Nat} (rest : List Nat) (h1 : ¬ tag ≤ 0xFC) (h2 : tag ≠ 0xFD)
    (h3 : tag ≠ 0xFE) (h : rest.length < 8) :
    CompactSize.from_bytes (tag :: rest) = .err .InsufficientBytes := by
  have h9 : (tag :: rest : List Nat).length < 9 := by simp; omega
  simp [CompactSize.from_bytes, h1, h2, h3, h9]
  omega

/-! ### CompactSize: round-trip, truncation, extension -/

theorem cs_decode_encode (v : Nat) (hv : v < U64) (tail : List Nat) :
    CompactSize.from_bytes ((CompactSize.new v).to_bytes ++ tail) =
      .ok (CompactSize.new v) (CompactSize.new v).to_bytes.length := by
  by_cases h1 : v < 0xFD
  · rw [cs_enc_1 h1]
    simpa using cs_dec_small tail (by omega)
  · by_cases h2 : v ≤ 0xFFFF
    · rw [cs_enc_3 h1 h2, List.cons_append,
        cs_dec_fd_ok (leBytes 2 v ++ tail) (by simp [leBytes_length]),
        List.take_append_of_le_length (by simp [leBytes_length]),
        List.take_of_length_le (by simp [leBytes_length]),
        leVal_leBytes_of_lt (show v < 2 ^ (8 * 2) by norm_num; omega)]
      simp [leBytes_length]
    · by_cases h3 : v ≤ 0xFFFFFFFF
      · rw [cs_enc_5 h2 h3, List.cons_append,
          cs_dec_fe_ok (leBytes 4 v ++ tail) (by simp [leBytes_length]),
          List.take_append_of_le_length (by simp [leBytes_length]),
          List.take_of_length_le (by simp [leBytes_length]),
          leVal_leBytes_of_lt (show v < 2 ^ (8 * 4) by norm_num; omega)]
        simp [leBytes_length]
      · rw [cs_enc_9 h3, List.cons_append,
          cs_dec_hi_ok (leBytes 8 v ++ tail) (by norm_num) (by norm_num) (by norm_num)
            (by simp [leBytes_length]),
          List.take_append_of_le_length (by simp [leBytes_length]),
          List.take_of_length_le (by simp [leBytes_length]),
          leVal_leBytes_of_lt (show v < 2 ^ (8 * 8) by unfold U64 at hv; norm_num; omega)]
        simp [leBytes_length]

theorem cs_trunc {v k : Nat} (hk : k < (CompactSize.new v).to_bytes.length) :
    CompactSize.from_bytes ((CompactSize.new v).to_bytes.take k) = .err .InsufficientBytes := by
  by_cases h1 : v < 0xFD
  · rw [cs_enc_1 h1] at hk ⊢
    have : k = 0 := by simpa using hk
    subst this
    simp [CompactSize.from_bytes]
  · by_cases h2 : v ≤ 0xFFFF
    · rw [cs_enc_3 h1 h2] at hk ⊢
      have hk3 : k < 3 := by simpa [leBytes_length] using hk
      match k, hk3 with
      | 0, _ => simp [CompactSize.from_bytes]
      | k' + 1, _ =>
        rw [List.take_succ_cons]
        exact cs_dec_fd_err _ (by simp [List.length_take, leBytes_length]; omega)
    · by_cases h3 : v ≤ 0xFFFFFFFF
      · rw [cs_enc_5 h2 h3] at hk ⊢
        have hk5 : k < 5 := by simpa [leBytes_length] using hk
        match k, hk5 with
        | 0, _ => simp [CompactSize.from_bytes]
        | k' + 1, _ =>
          rw [List.take_succ_cons]
          exact cs_dec_fe_err _ (by simp [List.length_take, leBytes_length]; omega)
      · rw [cs_enc_9 h3] at hk ⊢
        have hk9 : k < 9 := by simpa [leBytes_length] using hk
        match k, hk9 with
        | 0, _ => simp [CompactSize.from_bytes]
        | k' + 1, _ =>
          rw [List.take_succ_cons]
          exact cs_dec_hi_err _ (by norm_num) (by norm_num) (by norm_num)
            (by simp [List.length_take, leBytes_length]; omega)

theorem cs_ok_length {b : List Nat} {cs : CompactSize} {n : Nat}
    (h : CompactSize.from_bytes b = .ok cs n) : n ≤ b.length := by
  match b with
  | [] => simp [CompactSize.from_bytes] at h
  | tag :: rest =>
    by_cases g1 : tag ≤ 0xFC
    · rw [cs_dec_small rest g1] at h
      simp at h
      simp [← h.2]
    · by_cases g2 : tag = 0xFD
      · subst g2
        by_cases g3 : rest.length < 2
        · rw [cs_dec_fd_err rest g3] at h; exact absurd h (by simp)
        · rw [cs_dec_fd_ok rest (by omega)] at h
          simp at h
          simp [← h.2]
          omega
      · by_cases g4 : tag = 0xFE
        · subst g4
          by_cases g5 : rest.length < 4
          · rw [cs_dec_fe_err rest g5] at h; exact absurd h (by simp)
          · rw [cs_dec_fe_ok rest (by omega)] at h
            simp at h
            simp [← h.2]
            omega
        · by_cases g6 : rest.length < 8
          · rw [cs_dec_hi_err rest g1 g2 g4 g6] at h; exact absurd h (by simp)
          · rw [cs_dec_hi_ok rest g1 g2 g4 (by omega)] at h
            simp at h
            simp [← h.2]
            omega

theorem cs_ok_append {b : List Nat} {cs : CompactSize} {n : Nat} (s : List Nat)
    (h : CompactSize.from_bytes b = .ok cs n) :
    CompactSize.from_bytes (b ++ s) = .ok cs n := by
  match b with
  | [] => simp [CompactSize.from_bytes] at h
  | tag :: rest =>
    rw [List.cons_append]
    by_cases g1 : tag ≤ 0xFC
    · rw [cs_dec_small rest g1] at h
      simp at h
      rw [cs_dec_small _ g1, h.1, h.2]
    · by_cases g2 : tag = 0xFD
      · subst g2
        by_cases g3 : rest.length < 2
        · rw [cs_dec_fd_err rest g3] at h; exact absurd h (by simp)
        · rw [cs_dec_fd_ok rest (by omega)] at h
          simp at h
          rw [cs_dec_fd_ok (rest ++ s) (by simp; omega),
            List.take_append_of_le_length (by omega), h.1, h.2]
      · by_cases g4 : tag = 0xFE
        · subst g4
          by_cases g5 : rest.length < 4
          · rw [cs_dec_fe_err rest g5] at h; exact absurd h (by simp)
          · rw [cs_dec_fe_ok rest (by omega)] at h
            simp at h
            rw [cs_dec_fe_ok (rest ++ s) (by simp; omega),
              List.take_append_of_le_length (by omega), h.1, h.2]
        · by_cases g6 : rest.length < 8
          · rw [cs_dec_hi_err rest g1 g2 g4 g6] at h; exact absurd h (by simp)
          · rw [cs_dec_hi_ok rest g1 g2 g4 (by omega)] at h
            simp at h
            rw [cs_dec_hi_ok (rest ++ s) g1 g2 g4 (by simp; omega),
              List.take_append_of_le_length (by omega), h.1, h.2]

/-! ### CompactSize: shape of decode failures -/

theorem cs_err_shape {tag : Nat} {rest : List Nat} {e : BitcoinError}
    (htag : tag < 256) (h : CompactSize.from_bytes (tag :: rest) = .err e) :
    e = .InsufficientBytes ∧
      ((tag = 0xFD ∧ (tag :: rest : List Nat).length < 3) ∨
       (tag = 0xFE ∧ (tag :: rest : List Nat).length < 5) ∨
       (tag = 0xFF ∧ (tag :: rest : List Nat).length < 9)) := by
  by_cases g1 : tag ≤ 0xFC
  · rw [cs_dec_small rest g1] at h; exact absurd h (by simp)
  · by_cases g2 : tag = 0xFD
    · subst g2
      by_cases g3 : rest.length < 2
      · rw [cs_dec_fd_err rest g3] at h
        simp only [DResult.err.injEq] at h
        exact ⟨h.symm, Or.inl ⟨rfl, by simp; omega⟩⟩
      · rw [cs_dec_fd_ok rest (by omega)] at h; exact absurd h (by simp)
    · by_cases g4 : tag = 0xFE
      · subst g4
        by_cases g5 : rest.length < 4
        · rw [cs_dec_fe_err rest g5] at h
          simp only [DResult.err.injEq] at h
          exact ⟨h.symm, Or.inr (Or.inl ⟨rfl, by simp; omega⟩)⟩
        · rw [cs_dec_fe_ok rest (by omega)] at h; exact absurd h (by simp)
      · have gff : tag = 0xFF := by omega
        subst gff
        by_cases g6 : rest.length < 8
        · rw [cs_dec_hi_err rest g1 g2 g4 g6] at h
          simp only [DResult.err.injEq] at h
          exact ⟨h.symm, Or.inr (Or.inr ⟨rfl, by simp; omega⟩)⟩
        · rw [cs_dec_hi_ok rest g1 g2 g4 (by omega)] at h; exact absurd h (by simp)

/-! ### OutPoint lemmas -/

theorem op_err_short {b : List Nat} (h : b.length < 36) :
    OutPoint.from_bytes b = .err .InsufficientBytes := by
  unfold OutPoint.from_bytes
  rw [if_pos h]

theorem op_dec_ok {b : List Nat} (h : 36 ≤ b.length) :
    OutPoint.from_bytes b = .ok (OutPoint.new (b.take 32) (leVal ((b.drop 32).take 4))) 36 := by
  unfold OutPoint.from_bytes
  rw [if_neg (by omega)]

theorem op_decode_encode (p : OutPoint) (h32 : p.txid.data.length = 32)
    (hv : p.vout < 2 ^ 32) (tail : List Nat) :
    OutPoint.from_bytes (p.to_bytes ++ tail) = .ok p 36 := by
  obtain ⟨⟨d⟩, v⟩ := p
  simp only [OutPoint.to_bytes] at *
  rw [List.append_assoc,
    op_dec_ok (by simp only [List.length_append, h32, leBytes_length]; omega),
    List.take_left' h32, List.drop_left' h32, List.take_left' (leBytes_length 4 v),
    leVal_leBytes_of_lt (show v < 2 ^ (8 * 4) by norm_num at hv ⊢; omega)]
  rfl

theorem op_ok_inv {b : List Nat} {p : OutPoint} {n : Nat}
    (h : OutPoint.from_bytes b = .ok p n) : n = 36 ∧ 36 ≤ b.length := by
  unfold OutPoint.from_bytes at h
  by_cases g : b.length < 36
  · rw [if_pos g] at h; exact absurd h (by simp)
  · rw [if_neg g] at h
    simp only [DResult.ok.injEq] at h
    exact ⟨h.2.symm, by omega⟩

/-! ### Step lemmas: rewriting the composite decoders by sub-decode results -/

theorem script_step {b : List Nat} {cs : CompactSize} {sl : Nat}
    (hcs : CompactSize.from_bytes b = .ok cs sl) :
    Script.from_bytes b =
      (if b.length < (sl + cs.value) % U64 then .err .InsufficientBytes
       else if (sl + cs.value) % U64 < sl then .panic
       else .ok (Script.new ((b.drop sl).take ((sl + cs.value) % U64 - sl)))
         ((sl + cs.value) % U64)) := by
  unfold Script.from_bytes
  rw [hcs]

theorem script_step_err {b : List Nat} {e : BitcoinError}
    (hcs : CompactSize.from_bytes b = .err e) : Script.from_bytes b = .err e := by
  unfold Script.from_bytes
  rw [hcs]

theorem ti_step_op_err {b : List Nat} {e : BitcoinError}
    (hop : OutPoint.from_bytes b = .err e) : TransactionInput.from_bytes b = .err e := by
  unfold TransactionInput.from_bytes
  rw [hop]

theorem ti_step_script_err {b : List Nat} {p : OutPoint} {n : Nat} {e : BitcoinError}
    (hop : OutPoint.from_bytes b = .ok p n) (hs : Script.from_bytes (b.drop n) = .err e) :
    TransactionInput.from_bytes b = .err e := by
  unfold TransactionInput.from_bytes
  rw [hop]
  dsimp only
  rw [hs]

theorem ti_step_script_panic {b : List Nat} {p : OutPoint} {n : Nat}
    (hop : OutPoint.from_bytes b = .ok p n) (hs : Script.from_bytes (b.drop n) = .panic) :
    TransactionInput.from_bytes b = .panic := by
  unfold TransactionInput.from_bytes
  rw [hop]
  dsimp only
  rw [hs]

theorem ti_step_ok {b : List Nat} {p : OutPoint} {n : Nat} {s : Script} {m : Nat}
    (hop : OutPoint.from_bytes b = .ok p n) (hs : Script.from_bytes (b.drop n) = .ok s m) :
    TransactionInput.from_bytes b =
      (if b.length < n + m + 4 then .err .InsufficientBytes
       else .ok (TransactionInput.new p s (leVal ((b.drop (n + m)).take 4))) (n + m + 4)) := by
  unfold TransactionInput.from_bytes
  rw [hop]
  dsimp only
  rw [hs]

theorem di_zero (b : List Nat) (cursor : Nat) : decodeInputs b 0 cursor = .ok [] cursor := rfl

theorem di_step_err {b : List Nat} {n cursor : Nat} {e : BitcoinError}
    (h : TransactionInput.from_bytes (b.drop cursor) = .err e) :
    decodeInputs b (n + 1) cursor = .err e := by
  unfold decodeInputs
  rw [h]

theorem di_step_ok_err {b : List Nat} {n cursor : Nat} {i : TransactionInput} {l : Nat}
    {e : BitcoinError} (hti : TransactionInput.from_bytes (b.drop cursor) = .ok i l)
    (hrec : decodeInputs b n (cursor + l) = .err e) :
    decodeInputs b (n + 1) cursor = .err e := by
  unfold decodeInputs
  rw [hti]
  dsimp only
  rw [hrec]

theorem di_step_ok_ok {b : List Nat} {n cursor : Nat} {i : TransactionInput} {l : Nat}
    {is : List TransactionInput} {c : Nat}
    (hti : TransactionInput.from_bytes (b.drop cursor) = .ok i l)
    (hrec : decodeInputs b n (cursor + l) = .ok is c) :
    decodeInputs b (n + 1) cursor = .ok (i :: is) c := by
  unfold decodeInputs
  rw [hti]
  dsimp only
  rw [hrec]

theorem tx_step_short {b : List Nat} (h : b.length < 4) :
    BitcoinTransaction.from_bytes b = .err .InsufficientBytes := by
  unfold BitcoinTransaction.from_bytes
  rw [if_pos h]

theorem tx_step_cs_err {b : List Nat} {e : BitcoinError} (h4 : ¬ b.length < 4)
    (hcs : CompactSize.from_bytes (b.drop 4) = .err e) :
    BitcoinTransaction.from_bytes b = .err e := by
  unfold BitcoinTransaction.from_bytes
  rw [if_neg h4, hcs]

theorem tx_step_di_err {b : List Nat} {cs : CompactSize} {n : Nat} {e : BitcoinError}
    (h4 : ¬ b.length < 4) (hcs : CompactSize.from_bytes (b.drop 4) = .ok cs n)
    (hdi : decodeInputs b cs.value (n + 4) = .err e) :
    BitcoinTransaction.from_bytes b = .err e := by
  unfold BitcoinTransaction.from_bytes
  rw [if_neg h4, hcs]
  dsimp only
  rw [hdi]

theorem tx_step_di_ok {b : List Nat} {cs : CompactSize} {n : Nat}
    {is : List TransactionInput} {c : Nat} (h4 : ¬ b.length < 4)
    (hcs : CompactSize.from_bytes (b.drop 4) = .ok cs n)
    (hdi : decodeInputs b cs.value (n + 4) = .ok is c) :
    BitcoinTransaction.from_bytes b =
      (if b.length < c + 4 then .err .InsufficientBytes
       else .ok (BitcoinTransaction.new (leVal (b.take 4)) is
         (leVal ((b.drop c).take 4))) (c + 4)) := by
  unfold BitcoinTransaction.from_bytes
  rw [if_neg h4, hcs]
  dsimp only
  rw [hdi]

theorem script_step_panic {b : List Nat} (hcs : CompactSize.from_bytes b = .panic) :
    Script.from_bytes b = .panic := by
  unfold Script.from_bytes
  rw [hcs]

/-! ### Script lemmas -/

theorem cs_new_value (v : Nat) : (CompactSize.new v).value = v := rfl

theorem lt_U64_of_lt_63 {v : Nat} (h : v < 2 ^ 63) : v < U64 := by
  have h63 : (2 : Nat) ^ 63 < 2 ^ 64 := by norm_num
  unfold U64
  omega

theorem script_decode_encode (s : Script) (hL : s.bytes.length < 2 ^ 63) (tail : List Nat) :
    Script.from_bytes (s.to_bytes ++ tail) = .ok s s.to_bytes.length := by
  obtain ⟨content⟩ := s
  simp only [Script.to_bytes] at *
  have hcsl := cs_enc_length_le content.length
  have hmod : ((CompactSize.new content.length).to_bytes.length + content.length) % U64
      = (CompactSize.new content.length).to_bytes.length + content.length := by
    apply Nat.mod_eq_of_lt
    have h63 : (2 : Nat) ^ 63 < 2 ^ 64 := by norm_num
    unfold U64
    omega
  rw [List.append_assoc,
    script_step (cs_decode_encode content.length (lt_U64_of_lt_63 hL) (content ++ tail)),
    cs_new_value, hmod, if_neg (by simp only [List.length_append]; omega),
    if_neg (by omega), Nat.add_sub_cancel_left, List.drop_left, List.take_left]
  simp only [List.length_append, Script.new]

theorem script_trunc (s : Script) (hL : s.bytes.length < 2 ^ 63) {k : Nat}
    (hk : k < s.to_bytes.length) :
    Script.from_bytes (s.to_bytes.take k) = .err .InsufficientBytes := by
  obtain ⟨content⟩ := s
  simp only [Script.to_bytes, List.length_append] at *
  have hcsl := cs_enc_length_le content.length
  by_cases hcase : k < (CompactSize.new content.length).to_bytes.length
  · rw [List.take_append_of_le_length (by omega)]
    exact script_step_err (cs_trunc hcase)
  · rw [show k = (CompactSize.new content.length).to_bytes.length
        + (k - (CompactSize.new content.length).to_bytes.length) by omega,
      List.take_append,
      script_step (cs_decode_encode content.length (lt_U64_of_lt_63 hL) _)]
    have hmod : ((CompactSize.new content.length).to_bytes.length + content.length) % U64
        = (CompactSize.new content.length).to_bytes.length + content.length := by
      apply Nat.mod_eq_of_lt
      have h63 : (2 : Nat) ^ 63 < 2 ^ 64 := by norm_num
      unfold U64
      omega
    rw [cs_new_value, hmod, if_pos (by simp only [List.length_append, List.length_take]; omega)]

theorem script_ok_length {b : List Nat} {s : Script} {n : Nat}
    (h : Script.from_bytes b = .ok s n) : n ≤ b.length := by
  cases hcs : CompactSize.from_bytes b with
  | err e => rw [script_step_err hcs] at h; exact absurd h (by simp)
  | panic => rw [script_step_panic hcs] at h; exact absurd h (by simp)
  | ok cs sl =>
    rw [script_step hcs] at h
    split_ifs at h with g1 g2
    simp only [DResult.ok.injEq] at h
    omega

theorem script_ok_append {b : List Nat} {s : Script} {n : Nat} (t : List Nat)
    (h : Script.from_bytes b = .ok s n) : Script.from_bytes (b ++ t) = .ok s n := by
  cases hcs : CompactSize.from_bytes b with
  | err e => rw [script_step_err hcs] at h; exact absurd h (by simp)
  | panic => rw [script_step_panic hcs] at h; exact absurd h (by simp)
  | ok cs sl =>
    have hsl := cs_ok_length hcs
    rw [script_step hcs] at h
    split_ifs at h with g1 g2
    rw [script_step (cs_ok_append t hcs),
        if_neg (by simp only [List.length_append]; omega),
      if_neg g2, List.drop_append_of_le_length hsl,
      List.take_append_of_le_length (by simp only [List.length_drop]; omega)]
    exact h

/-! ### TransactionInput lemmas -/

theorem ti_step_op_panic {b : List Nat} (hop : OutPoint.from_bytes b = .panic) :
    TransactionInput.from_bytes b = .panic := by
  unfold TransactionInput.from_bytes
  rw [hop]

theorem op_to_bytes_length {p : OutPoint} (h32 : p.txid.data.length = 32) :
    p.to_bytes.length = 36 := by
  simp [OutPoint.to_bytes, List.length_append, h32, leBytes_length]

theorem ti_enc_length (i : TransactionInput) (h32 : i.previous_output.txid.data.length = 32) :
    i.to_bytes.length = 36 + (CompactSize.new i.script_sig.bytes.length).to_bytes.length
      + i.script_sig.bytes.length + 4 := by
  simp only [TransactionInput.to_bytes, Script.to_bytes, List.length_append,
    op_to_bytes_length h32, leBytes_length]
  omega

theorem ti_decode_encode (i : TransactionInput) (hwf : i.WF) (tail : List Nat) :
    TransactionInput.from_bytes (i.to_bytes ++ tail) = .ok i i.to_bytes.length := by
  obtain ⟨h32, hv, hL, hseq⟩ := hwf
  have hop_len : i.previous_output.to_bytes.length = 36 := op_to_bytes_length h32
  simp only [TransactionInput.to_bytes, List.append_assoc]
  rw [ti_step_ok (op_decode_encode i.previous_output h32 hv _)
    (by rw [List.drop_left' hop_len]
        exact script_decode_encode i.script_sig hL (leBytes 4 i.sequence ++ tail))]
  rw [if_neg (by simp only [List.length_append, hop_len, leBytes_length]; omega)]
  rw [show (36 : Nat) + i.script_sig.to_bytes.length
      = (i.previous_output.to_bytes ++ i.script_sig.to_bytes).length by
        simp [List.length_append, hop_len]]
  rw [← List.append_assoc, List.drop_left, List.take_left' (leBytes_length 4 i.sequence),
    leVal_leBytes_of_lt (show i.sequence < 2 ^ (8 * 4) by norm_num at hseq ⊢; omega)]
  simp [List.length_append, hop_len, leBytes_length, TransactionInput.new]
  omega

theorem ti_trunc (i : TransactionInput) (hwf : i.WF) {k : Nat} (hk : k < i.to_bytes.length) :
    TransactionInput.from_bytes (i.to_bytes.take k) = .err .InsufficientBytes := by
  obtain ⟨h32, hv, hL, hseq⟩ := hwf
  have hop_len : i.previous_output.to_bytes.length = 36 := op_to_bytes_length h32
  have hlen : i.to_bytes.length = 36 + i.script_sig.to_bytes.length + 4 := by
    simp [TransactionInput.to_bytes, List.length_append, hop_len, leBytes_length]
    omega
  have hk' : k < 36 + i.script_sig.to_bytes.length + 4 := by omega
  by_cases c1 : k < 36
  · apply ti_step_op_err
    apply op_err_short
    simp only [List.length_take]
    omega
  · by_cases c2 : k < 36 + i.script_sig.to_bytes.length
    · simp only [TransactionInput.to_bytes, List.append_assoc]
      rw [show k = i.previous_output.to_bytes.length + (k - 36) by omega, List.take_append]
      apply ti_step_script_err (op_decode_encode i.previous_output h32 hv _)
      rw [List.drop_left' hop_len, List.take_append_of_le_length (by omega)]
      exact script_trunc i.script_sig hL (by omega)
    · simp only [TransactionInput.to_bytes, List.append_assoc]
      rw [show k = i.previous_output.to_bytes.length + (k - 36) by omega, List.take_append,
        show k - 36 = i.script_sig.to_bytes.length
          + (k - 36 - i.script_sig.to_bytes.length) by omega,
        List.take_append]
      rw [ti_step_ok (op_decode_encode i.previous_output h32 hv _)
        (by rw [List.drop_left' hop_len]
            exact script_decode_encode i.script_sig hL _)]
      rw [if_pos (by
        simp only [List.length_append, hop_len, List.length_take, leBytes_length]
        omega)]

theorem ti_ok_inv {b : List Nat} {i : TransactionInput} {n : Nat}
    (h : TransactionInput.from_bytes b = .ok i n) :
    ∃ m, Script.from_bytes (b.drop 36) = .ok i.script_sig m ∧ n = 36 + m + 4 ∧ n ≤ b.length := by
  cases hop : OutPoint.from_bytes b with
  | err e => rw [ti_step_op_err hop] at h; exact absurd h (by simp)
  | panic => rw [ti_step_op_panic hop] at h; exact absurd h (by simp)
  | ok p m0 =>
    obtain ⟨h36, hble⟩ := op_ok_inv hop
    subst h36
    cases hs : Script.from_bytes (b.drop 36) with
    | err e => rw [ti_step_script_err hop hs] at h; exact absurd h (by simp)
    | panic => rw [ti_step_script_panic hop hs] at h; exact absurd h (by simp)
    | ok sc m =>
      rw [ti_step_ok hop hs] at h
      split_ifs at h with g
      simp only [DResult.ok.injEq] at h
      obtain ⟨hi, hn⟩ := h
      subst hi
      exact ⟨m, rfl, by omega, by omega⟩

theorem op_ok_append {b : List Nat} {p : OutPoint} {n : Nat} (t : List Nat)
    (h : OutPoint.from_bytes b = .ok p n) : OutPoint.from_bytes (b ++ t) = .ok p n := by
  obtain ⟨h36, hble⟩ := op_ok_inv h
  subst h36
  rw [op_dec_ok hble] at h
  rw [op_dec_ok (by simp only [List.length_append]; omega),
    List.take_append_of_le_length (by omega),
    List.drop_append_of_le_length (by omega),
    List.take_append_of_le_length (by simp only [List.length_drop]; omega)]
  exact h

theorem ti_ok_append {b : List Nat} {i : TransactionInput} {n : Nat} (t : List Nat)
    (h : TransactionInput.from_bytes b = .ok i n) :
    TransactionInput.from_bytes (b ++ t) = .ok i n := by
  cases hop : OutPoint.from_bytes b with
  | err e => rw [ti_step_op_err hop] at h; exact absurd h (by simp)
  | panic => rw [ti_step_op_panic hop] at h; exact absurd h (by simp)
  | ok p m0 =>
    obtain ⟨h36, hble⟩ := op_ok_inv hop
    subst h36
    cases hs : Script.from_bytes (b.drop 36) with
    | err e => rw [ti_step_script_err hop hs] at h; exact absurd h (by simp)
    | panic => rw [ti_step_script_panic hop hs] at h; exact absurd h (by simp)
    | ok sc m =>
      have hm := script_ok_length hs
      rw [ti_step_ok hop hs] at h
      split_ifs at h with g
      rw [ti_step_ok (op_ok_append t hop)
        (by rw [List.drop_append_of_le_length (by omega)]
            exact script_ok_append t hs)]
      rw [if_neg (by simp only [List.length_append]; omega),
        List.drop_append_of_le_length (by simp only [List.length_drop] at hm ⊢; omega),
        List.take_append_of_le_length (by simp only [List.length_drop] at hm ⊢; omega)]
      exact h

/-! ### Decode-loop lemmas -/

theorem di_step_panic {b : List Nat} {n cursor : Nat}
    (h : TransactionInput.from_bytes (b.drop cursor) = .panic) :
    decodeInputs b (n + 1) cursor = .panic := by
  unfold decodeInputs
  rw [h]

theorem di_step_ok_panic {b : List Nat} {n cursor : Nat} {i : TransactionInput} {l : Nat}
    (hti : TransactionInput.from_bytes (b.drop cursor) = .ok i l)
    (hrec : decodeInputs b n (cursor + l) = .panic) :
    decodeInputs b (n + 1) cursor = .panic := by
  unfold decodeInputs
  rw [hti]
  dsimp only
  rw [hrec]

theorem tx_step_cs_panic {b : List Nat} (h4 : ¬ b.length < 4)
    (hcs : CompactSize.from_bytes (b.drop 4) = .panic) :
    BitcoinTransaction.from_bytes b = .panic := by
  unfold BitcoinTransaction.from_bytes
  rw [if_neg h4, hcs]

theorem tx_step_di_panic {b : List Nat} {cs : CompactSize} {n : Nat}
    (h4 : ¬ b.length < 4) (hcs : CompactSize.from_bytes (b.drop 4) = .ok cs n)
    (hdi : decodeInputs b cs.value (n + 4) = .panic) :
    BitcoinTransaction.from_bytes b = .panic := by
  unfold BitcoinTransaction.from_bytes
  rw [if_neg h4, hcs]
  dsimp only
  rw [hdi]

theorem di_encode (is : List TransactionInput) (hwf : ∀ i ∈ is, i.WF)
    (pre tail : List Nat) :
    decodeInputs (pre ++ (is.map TransactionInput.to_bytes).flatten ++ tail)
        is.length pre.length
      = .ok is (pre.length + ((is.map TransactionInput.to_bytes).flatten).length) := by
  induction is generalizing pre with
  | nil => simp [di_zero]
  | cons i is ih =>
    simp only [List.map_cons, List.flatten_cons, List.length_append, List.length_cons]
    rw [show pre ++ (i.to_bytes ++ (List.map TransactionInput.to_bytes is).flatten) ++ tail
        = pre ++ (i.to_bytes ++ ((List.map TransactionInput.to_bytes is).flatten ++ tail)) by
      simp [List.append_assoc]]
    have hti : TransactionInput.from_bytes
        ((pre ++ (i.to_bytes ++ ((List.map TransactionInput.to_bytes is).flatten
          ++ tail))).drop pre.length) = .ok i i.to_bytes.length := by
      rw [List.drop_left]
      exact ti_decode_encode i (hwf i (by simp)) _
    have h2 := ih (fun j hj => hwf j (List.mem_cons_of_mem _ hj)) (pre ++ i.to_bytes)
    simp only [List.append_assoc, List.length_append] at h2
    rw [Nat.add_assoc] at h2
    exact di_step_ok_ok hti h2

theorem di_trunc (is : List TransactionInput) (hwf : ∀ i ∈ is, i.WF) (pre : List Nat)
    (k : Nat) (hk : k < ((is.map TransactionInput.to_bytes).flatten).length) :
    decodeInputs (pre ++ ((is.map TransactionInput.to_bytes).flatten).take k)
        is.length pre.length
      = .err .InsufficientBytes := by
  induction is generalizing pre k with
  | nil => simp at hk
  | cons i is ih =>
    simp only [List.map_cons, List.flatten_cons, List.length_append, List.length_cons] at hk ⊢
    by_cases c1 : k < i.to_bytes.length
    · rw [List.take_append_of_le_length (by omega)]
      apply di_step_err
      rw [List.drop_left]
      exact ti_trunc i (hwf i (by simp)) c1
    · rw [show k = i.to_bytes.length + (k - i.to_bytes.length) by omega, List.take_append]
      have hti : TransactionInput.from_bytes
          ((pre ++ (i.to_bytes ++ ((List.map TransactionInput.to_bytes is).flatten.take
            (k - i.to_bytes.length)))).drop pre.length) = .ok i i.to_bytes.length := by
        rw [List.drop_left]
        exact ti_decode_encode i (hwf i (by simp)) _
      have h2 := ih (fun j hj => hwf j (List.mem_cons_of_mem _ hj)) (pre ++ i.to_bytes)
        (k - i.to_bytes.length) (by omega)
      simp only [List.append_assoc, List.length_append] at h2
      exact di_step_ok_err hti h2

/-! ### BitcoinTransaction: round-trip -/

theorem tx_decode_encode (T : BitcoinTransaction) (hwf : T.WF) (tail : List Nat) :
    BitcoinTransaction.from_bytes (T.to_bytes ++ tail) = .ok T T.to_bytes.length := by
  obtain ⟨ver, ins, lock⟩ := T
  obtain ⟨hver, hlock, hcount, hinputs⟩ := hwf
  simp only [BitcoinTransaction.to_bytes, List.append_assoc]
  have hflen := cs_enc_length_le ins.length
  have h4 : ¬ (leBytes 4 ver ++ ((CompactSize.new ins.length).to_bytes
      ++ ((ins.map TransactionInput.to_bytes).flatten
        ++ (leBytes 4 lock ++ tail)))).length < 4 := by
    simp only [List.length_append, leBytes_length]
    omega
  have hcs : CompactSize.from_bytes ((leBytes 4 ver ++ ((CompactSize.new ins.length).to_bytes
      ++ ((ins.map TransactionInput.to_bytes).flatten
        ++ (leBytes 4 lock ++ tail)))).drop 4)
      = .ok (CompactSize.new ins.length) (CompactSize.new ins.length).to_bytes.length := by
    rw [List.drop_left' (leBytes_length 4 ver)]
    exact cs_decode_encode ins.length (lt_U64_of_lt_63 hcount) _
  have hdi0 := di_encode ins hinputs
    (leBytes 4 ver ++ (CompactSize.new ins.length).to_bytes) (leBytes 4 lock ++ tail)
  simp only [List.append_assoc, List.length_append, leBytes_length] at hdi0
  rw [Nat.add_comm 4 (CompactSize.new ins.length).to_bytes.length] at hdi0
  rw [tx_step_di_ok h4 hcs hdi0]
  rw [if_neg (by simp only [List.length_append, leBytes_length]; omega)]
  have hdropc : (leBytes 4 ver ++ ((CompactSize.new ins.length).to_bytes
      ++ ((ins.map TransactionInput.to_bytes).flatten ++ (leBytes 4 lock ++ tail)))).drop
        ((CompactSize.new ins.length).to_bytes.length + 4
          + ((ins.map TransactionInput.to_bytes).flatten).length)
      = leBytes 4 lock ++ tail := by
    rw [show leBytes 4 ver ++ ((CompactSize.new ins.length).to_bytes
        ++ ((ins.map TransactionInput.to_bytes).flatten ++ (leBytes 4 lock ++ tail)))
      = (leBytes 4 ver ++ ((CompactSize.new ins.length).to_bytes
          ++ (ins.map TransactionInput.to_bytes).flatten)) ++ (leBytes 4 lock ++ tail) by
        simp [List.append_assoc]]
    exact List.drop_left' (by simp only [List.length_append, leBytes_length]; omega)
  rw [hdropc, List.take_left' (leBytes_length 4 ver), List.take_left' (leBytes_length 4 lock),
    leVal_leBytes_of_lt (show ver < 2 ^ (8 * 4) by norm_num at hver ⊢; omega),
    leVal_leBytes_of_lt (show lock < 2 ^ (8 * 4) by norm_num at hlock ⊢; omega)]
  simp only [BitcoinTransaction.new, DResult.ok.injEq, List.length_append, leBytes_length]
  exact ⟨trivial, by omega⟩

/-! ### BitcoinTransaction: truncation, consumed bound, extension -/

theorem tx_trunc (T : BitcoinTransaction) (hwf : T.WF) (k : Nat) (hk : k < T.to_bytes.length) :
    BitcoinTransaction.from_bytes (T.to_bytes.take k) = .err .InsufficientBytes := by
  obtain ⟨ver, ins, lock⟩ := T
  obtain ⟨hver, hlock, hcount, hinputs⟩ := hwf
  have hcl9 := cs_enc_length_le ins.length
  simp only [BitcoinTransaction.to_bytes, List.append_assoc, List.length_append,
    leBytes_length] at hk ⊢
  by_cases c1 : k < 4
  · apply tx_step_short
    simp only [List.length_take, List.length_append, leBytes_length]
    omega
  · rw [show k = (leBytes 4 ver).length + (k - 4) by rw [leBytes_length]; omega,
      List.take_append]
    by_cases c2 : k - 4 < (CompactSize.new ins.length).to_bytes.length
    · refine tx_step_cs_err ?_ ?_
      · simp only [List.length_append, leBytes_length, List.length_take]
        omega
      · rw [List.drop_left' (leBytes_length 4 ver), List.take_append_of_le_length (by omega)]
        exact cs_trunc (by omega)
    · rw [show k - 4 = (CompactSize.new ins.length).to_bytes.length
          + (k - 4 - (CompactSize.new ins.length).to_bytes.length) by omega,
        List.take_append]
      by_cases c3 : k - 4 - (CompactSize.new ins.length).to_bytes.length
          < ((ins.map TransactionInput.to_bytes).flatten).length
      · rw [List.take_append_of_le_length (by omega)]
        have h4' : ¬ (leBytes 4 ver ++ ((CompactSize.new ins.length).to_bytes
            ++ ((ins.map TransactionInput.to_bytes).flatten).take
              (k - 4 - (CompactSize.new ins.length).to_bytes.length))).length < 4 := by
          simp only [List.length_append, leBytes_length]
          omega
        have hcs' : CompactSize.from_bytes ((leBytes 4 ver
            ++ ((CompactSize.new ins.length).to_bytes
              ++ ((ins.map TransactionInput.to_bytes).flatten).take
                (k - 4 - (CompactSize.new ins.length).to_bytes.length))).drop 4)
            = .ok (CompactSize.new ins.length)
              (CompactSize.new ins.length).to_bytes.length := by
          rw [List.drop_left' (leBytes_length 4 ver)]
          exact cs_decode_encode ins.length (lt_U64_of_lt_63 hcount) _
        have hdi' := di_trunc ins hinputs
          (leBytes 4 ver ++ (CompactSize.new ins.length).to_bytes)
          (k - 4 - (CompactSize.new ins.length).to_bytes.length) c3
        simp only [List.append_assoc, List.length_append, leBytes_length] at hdi'
        rw [Nat.add_comm 4 (CompactSize.new ins.length).to_bytes.length] at hdi'
        exact tx_step_di_err h4' hcs' hdi'
      · rw [show k - 4 - (CompactSize.new ins.length).to_bytes.length
            = ((ins.map TransactionInput.to_bytes).flatten).length
              + (k - 4 - (CompactSize.new ins.length).to_bytes.length
                - ((ins.map TransactionInput.to_bytes).flatten).length) by omega,
          List.take_append]
        have h4' : ¬ (leBytes 4 ver ++ ((CompactSize.new ins.length).to_bytes
            ++ ((ins.map TransactionInput.to_bytes).flatten
              ++ (leBytes 4 lock).take (k - 4 - (CompactSize.new ins.length).to_bytes.length
                - ((ins.map TransactionInput.to_bytes).flatten).length)))).length < 4 := by
          simp only [List.length_append, leBytes_length]
          omega
        have hcs' : CompactSize.from_bytes ((leBytes 4 ver
            ++ ((CompactSize.new ins.length).to_bytes
              ++ ((ins.map TransactionInput.to_bytes).flatten
                ++ (leBytes 4 lock).take (k - 4 - (CompactSize.new ins.length).to_bytes.length
                  - ((ins.map TransactionInput.to_bytes).flatten).length)))).drop 4)
            = .ok (CompactSize.new ins.length)
              (CompactSize.new ins.length).to_bytes.length := by
          rw [List.drop_left' (leBytes_length 4 ver)]
          exact cs_decode_encode ins.length (lt_U64_of_lt_63 hcount) _
        have hdi0 := di_encode ins hinputs
          (leBytes 4 ver ++ (CompactSize.new ins.length).to_bytes)
          ((leBytes 4 lock).take (k - 4 - (CompactSize.new ins.length).to_bytes.length
            - ((ins.map TransactionInput.to_bytes).flatten).length))
        simp only [List.append_assoc, List.length_append, leBytes_length] at hdi0
        rw [Nat.add_comm 4 (CompactSize.new ins.length).to_bytes.length] at hdi0
        rw [tx_step_di_ok h4' hcs' hdi0]
        rw [if_pos (by
          simp only [List.length_append, leBytes_length, List.length_take]
          omega)]

theorem tx_ok_length {b : List Nat} {T : BitcoinTransaction} {n : Nat}
    (h : BitcoinTransaction.from_bytes b = .ok T n) : n ≤ b.length := by
  by_cases h4 : b.length < 4
  · rw [tx_step_short h4] at h; exact absurd h (by simp)
  · cases hcs : CompactSize.from_bytes (b.drop 4) with
    | err e => rw [tx_step_cs_err h4 hcs] at h; exact absurd h (by simp)
    | panic => rw [tx_step_cs_panic h4 hcs] at h; exact absurd h (by simp)
    | ok cs cl =>
      cases hdi : decodeInputs b cs.value (cl + 4) with
      | err e => rw [tx_step_di_err h4 hcs hdi] at h; exact absurd h (by simp)
      | panic => rw [tx_step_di_panic h4 hcs hdi] at h; exact absurd h (by simp)
      | ok is c =>
        rw [tx_step_di_ok h4 hcs hdi] at h
        split_ifs at h with g
        simp only [DResult.ok.injEq] at h
        omega

theorem di_ok_append {b : List Nat} {n cursor : Nat} {is : List TransactionInput} {c : Nat}
    (t : List Nat) (h : decodeInputs b n cursor = .ok is c) :
    decodeInputs (b ++ t) n cursor = .ok is c := by
  induction n generalizing cursor is c with
  | zero =>
    rw [di_zero] at h
    rw [di_zero]
    exact h
  | succ n ih =>
    cases hti : TransactionInput.from_bytes (b.drop cursor) with
    | err e => rw [di_step_err hti] at h; exact absurd h (by simp)
    | panic => rw [di_step_panic hti] at h; exact absurd h (by simp)
    | ok i l =>
      obtain ⟨m, hsc, hl40, hlle⟩ := ti_ok_inv hti
      have hcur : cursor ≤ b.length := by
        simp only [List.length_drop] at hlle
        omega
      cases hrec : decodeInputs b n (cursor + l) with
      | err e => rw [di_step_ok_err hti hrec] at h; exact absurd h (by simp)
      | panic => rw [di_step_ok_panic hti hrec] at h; exact absurd h (by simp)
      | ok is' c' =>
        rw [di_step_ok_ok hti hrec] at h
        rw [di_step_ok_ok (show TransactionInput.from_bytes ((b ++ t).drop cursor) = .ok i l by
            rw [List.drop_append_of_le_length hcur]
            exact ti_ok_append t hti) (ih hrec)]
        exact h

theorem tx_ok_append {b : List Nat} {T : BitcoinTransaction} {n : Nat} (t : List Nat)
    (h : BitcoinTransaction.from_bytes b = .ok T n) :
    BitcoinTransaction.from_bytes (b ++ t) = .ok T n := by
  by_cases h4 : b.length < 4
  · rw [tx_step_short h4] at h; exact absurd h (by simp)
  · cases hcs : CompactSize.from_bytes (b.drop 4) with
    | err e => rw [tx_step_cs_err h4 hcs] at h; exact absurd h (by simp)
    | panic => rw [tx_step_cs_panic h4 hcs] at h; exact absurd h (by simp)
    | ok cs cl =>
      cases hdi : decodeInputs b cs.value (cl + 4) with
      | err e => rw [tx_step_di_err h4 hcs hdi] at h; exact absurd h (by simp)
      | panic => rw [tx_step_di_panic h4 hcs hdi] at h; exact absurd h (by simp)
      | ok is c =>
        rw [tx_step_di_ok h4 hcs hdi] at h
        split_ifs at h with g
        have hcs' : CompactSize.from_bytes ((b ++ t).drop 4) = .ok cs cl := by
          rw [List.drop_append_of_le_length (by omega)]
          exact cs_ok_append t hcs
        rw [tx_step_di_ok (by simp only [List.length_append]; omega) hcs' (di_ok_append t hdi)]
        rw [if_neg (by simp only [List.length_append]; omega),
          List.take_append_of_le_length (by omega),
          List.drop_append_of_le_length (by omega),
          List.take_append_of_le_length (by simp only [List.length_drop]; omega)]
        exact h

/-! ### Claims -/

/-- C1: for every Rust-representable transaction `T` (u32 version and lock
time, 32-byte txids, u32 vouts and sequences, `Vec`-sized scripts and input
vector), `BitcoinTransaction.from_bytes` applied to
`BitcoinTransaction.to_bytes T` returns `ok T n` with `n` the length of the
encoding. -/
theorem claim_C1_roundtrip (T : BitcoinTransaction) (hT : T.WF) :
    BitcoinTransaction.from_bytes T.to_bytes = .ok T T.to_bytes.length := by
  simpa using tx_decode_encode T hT []

theorem claim_C1_witness :
    sampleTx.WF ∧ BitcoinTransaction.from_bytes sampleTx.to_bytes
      = .ok sampleTx sampleTx.to_bytes.length :=
  ⟨by decide, claim_C1_roundtrip sampleTx (by decide)⟩

/-- C2: the claim that `Script.from_bytes` never panics fails on the code:
on the buffer `0xFF FF FF FF FF FF FF FF FF` the declared length `2 ^ 64 - 1`
makes `size_len + script_len` overflow 64-bit `usize`, the wrapped bound `8`
passes the insufficient-bytes check, and the slice `bytes[9..8]` panics
(debug builds already panic at the addition), instead of returning
`InsufficientBytes`. -/
theorem claim_C2_overflow_panic :
    Script.from_bytes [0xFF, 0xFF, 0xFF, 0xFF, 0xFF, 0xFF, 0xFF, 0xFF, 0xFF] = .panic := by
  decide

/-- C3: the `CompactSize.from_bytes` decode contract: empty input fails with
`InsufficientBytes`; a tag `≤ 0xFC` yields the tag with consumed 1; tags
`0xFD`/`0xFE`/`0xFF` require 3/5/9 bytes in total (else `InsufficientBytes`)
and yield the next 2/4/8 bytes little-endian with consumed 3/5/9; and each
boundary value decodes from its own encoding with the prescribed consumed
length. -/
theorem claim_C3_decode_contract :
    CompactSize.from_bytes [] = .err .InsufficientBytes ∧
    (∀ b rest, b ≤ 0xFC → CompactSize.from_bytes (b :: rest) = .ok (CompactSize.new b) 1) ∧
    (∀ rest : List Nat, (0xFD :: rest : List Nat).length < 3 →
      CompactSize.from_bytes (0xFD :: rest) = .err .InsufficientBytes) ∧
    (∀ rest : List Nat, 3 ≤ (0xFD :: rest : List Nat).length →
      CompactSize.from_bytes (0xFD :: rest) = .ok (CompactSize.new (leVal (rest.take 2))) 3) ∧
    (∀ rest : List Nat, (0xFE :: rest : List Nat).length < 5 →
      CompactSize.from_bytes (0xFE :: rest) = .err .InsufficientBytes) ∧
    (∀ rest : List Nat, 5 ≤ (0xFE :: rest : List Nat).length →
      CompactSize.from_bytes (0xFE :: rest) = .ok (CompactSize.new (leVal (rest.take 4))) 5) ∧
    (∀ rest : List Nat, (0xFF :: rest : List Nat).length < 9 →
      CompactSize.from_bytes (0xFF :: rest) = .err .InsufficientBytes) ∧
    (∀ rest : List Nat, 9 ≤ (0xFF :: rest : List Nat).length →
      CompactSize.from_bytes (0xFF :: rest) = .ok (CompactSize.new (leVal (rest.take 8))) 9) ∧
    CompactSize.from_bytes (CompactSize.new 0).to_bytes = .ok (CompactSize.new 0) 1 ∧
    CompactSize.from_bytes (CompactSize.new 0xFC).to_bytes = .ok (CompactSize.new 0xFC) 1 ∧
    CompactSize.from_bytes (CompactSize.new 0xFD).to_bytes = .ok (CompactSize.new 0xFD) 3 ∧
    CompactSize.from_bytes (CompactSize.new 0xFFFF).to_bytes
      = .ok (CompactSize.new 0xFFFF) 3 ∧
    CompactSize.from_bytes (CompactSize.new 0x10000).to_bytes
      = .ok (CompactSize.new 0x10000) 5 ∧
    CompactSize.from_bytes (CompactSize.new 0xFFFFFFFF).to_bytes
      = .ok (CompactSize.new 0xFFFFFFFF) 5 ∧
    CompactSize.from_bytes (CompactSize.new 0x100000000).to_bytes
      = .ok (CompactSize.new 0x100000000) 9 ∧
    CompactSize.from_bytes (CompactSize.new 0xFFFFFFFFFFFFFFFF).to_bytes
      = .ok (CompactSize.new 0xFFFFFFFFFFFFFFFF) 9 := by
  refine ⟨by decide, fun b rest h => cs_dec_small rest h,
    fun rest h => cs_dec_fd_err rest (by simp at h; omega),
    fun rest h => cs_dec_fd_ok rest (by simp at h; omega),
    fun rest h => cs_dec_fe_err rest (by simp at h; omega),
    fun rest h => cs_dec_fe_ok rest (by simp at h; omega),
    fun rest h => cs_dec_hi_err rest (by norm_num) (by norm_num) (by norm_num)
      (by simp at h; omega),
    fun rest h => cs_dec_hi_ok rest (by norm_num) (by norm_num) (by norm_num)
      (by simp at h; omega),
    by decide, by decide, by decide, by decide, by decide, by decide, by decide, by decide⟩

theorem claim_C3_witness :
    CompactSize.from_bytes [7] = .ok (CompactSize.new 7) 1 ∧
    CompactSize.from_bytes [0xFE, 1, 0, 0, 0] = .ok (CompactSize.new (leVal ([1, 0, 0, 0].take 4))) 5 :=
  ⟨claim_C3_decode_contract.2.1 7 [] (by decide),
   claim_C3_decode_contract.2.2.2.2.2.1 [1, 0, 0, 0] (by decide)⟩

/-- C4: `CompactSize.to_bytes` is total on `u64`, never empty, and follows
the range table: one raw byte below `0xFD`; `0xFD` + 2-byte LE up to
`0xFFFF`; `0xFE` + 4-byte LE up to `0xFFFFFFFF`; `0xFF` + 8-byte LE above. -/
theorem claim_C4_encode_contract (v : Nat) (hv : v < U64) :
    (CompactSize.new v).to_bytes ≠ [] ∧
    (v ≤ 0xFC → (CompactSize.new v).to_bytes = [v]) ∧
    (0xFD ≤ v → v ≤ 0xFFFF → (CompactSize.new v).to_bytes = 0xFD :: leBytes 2 v) ∧
    (0x10000 ≤ v → v ≤ 0xFFFFFFFF → (CompactSize.new v).to_bytes = 0xFE :: leBytes 4 v) ∧
    (0x100000000 ≤ v → (CompactSize.new v).to_bytes = 0xFF :: leBytes 8 v) := by
  refine ⟨List.ne_nil_of_length_pos (cs_enc_length_pos v), ?_, ?_, ?_, ?_⟩
  · intro h
    exact cs_enc_1 (by omega)
  · intro h1 h2
    exact cs_enc_3 (by omega) h2
  · intro h1 h2
    exact cs_enc_5 (by omega) h2
  · intro h1
    exact cs_enc_9 (by omega)

theorem claim_C4_witness : (CompactSize.new 300).to_bytes = 0xFD :: leBytes 2 300 :=
  (claim_C4_encode_contract 300 (by decide)).2.2.1 (by decide) (by decide)

/-- C5: non-minimal encodings are accepted (`0xFD 0x05 0x00` decodes to 5
with consumed 3), and decoding a non-empty byte buffer can only fail with
`InsufficientBytes` when the buffer is shorter than the width its tag
demands, never because of the tag value itself. -/
theorem claim_C5_nonminimal :
    CompactSize.from_bytes [0xFD, 0x05, 0x00] = .ok (CompactSize.new 5) 3 ∧
    (∀ tag rest e, tag < 256 → CompactSize.from_bytes (tag :: rest) = .err e →
      e = .InsufficientBytes ∧
        ((tag = 0xFD ∧ (tag :: rest : List Nat).length < 3) ∨
         (tag = 0xFE ∧ (tag :: rest : List Nat).length < 5) ∨
         (tag = 0xFF ∧ (tag :: rest : List Nat).length < 9))) :=
  ⟨by decide, fun _ _ _ htag h => cs_err_shape htag h⟩

theorem claim_C5_witness :
    BitcoinError.InsufficientBytes = BitcoinError.InsufficientBytes ∧
      ((0xFD = 0xFD ∧ (0xFD :: ([] : List Nat) : List Nat).length < 3) ∨
       (0xFD = 0xFE ∧ (0xFD :: ([] : List Nat) : List Nat).length < 5) ∨
       (0xFD = 0xFF ∧ (0xFD :: ([] : List Nat) : List Nat).length < 9)) :=
  claim_C5_nonminimal.2 0xFD [] .InsufficientBytes (by decide) (by decide)

/-- C6: decoding any strict prefix of a valid encoding fails with
`InsufficientBytes` at every truncation point, both for `CompactSize`
encodings of any `u64` and for encodings of any Rust-representable
transaction. -/
theorem claim_C6_truncation :
    (∀ v k, v < U64 → k < (CompactSize.new v).to_bytes.length →
      CompactSize.from_bytes ((CompactSize.new v).to_bytes.take k)
        = .err .InsufficientBytes) ∧
    (∀ T : BitcoinTransaction, ∀ k, T.WF → k < T.to_bytes.length →
      BitcoinTransaction.from_bytes (T.to_bytes.take k) = .err .InsufficientBytes) :=
  ⟨fun _ _ _ hk => cs_trunc hk, fun T k hwf hk => tx_trunc T hwf k hk⟩

theorem claim_C6_witness :
    CompactSize.from_bytes ((CompactSize.new 0xFFFF).to_bytes.take 2)
      = .err .InsufficientBytes ∧
    BitcoinTransaction.from_bytes (sampleTx.to_bytes.take 10) = .err .InsufficientBytes :=
  ⟨claim_C6_truncation.1 0xFFFF 2 (by decide) (by decide),
   claim_C6_truncation.2 sampleTx 10 (by decide) (by decide)⟩

/-- C7: a `TransactionInput` encodes to
`36 + len(VarInt(script length)) + script length + 4` bytes; a successful
decode consumes `36 + b + 4` bytes where `b` is the script sub-decode's
consumed count; and each sub-decode failure propagates unchanged. -/
theorem claim_C7_input_length :
    (∀ i : TransactionInput, i.previous_output.txid.data.length = 32 →
      i.to_bytes.length = 36 + (CompactSize.new i.script_sig.bytes.length).to_bytes.length
        + i.script_sig.bytes.length + 4) ∧
    (∀ b : List Nat, ∀ i n, TransactionInput.from_bytes b = .ok i n →
      ∃ m, Script.from_bytes (b.drop 36) = .ok i.script_sig m ∧ n = 36 + m + 4) ∧
    (∀ b : List Nat, ∀ e, OutPoint.from_bytes b = .err e →
      TransactionInput.from_bytes b = .err e) ∧
    (∀ b : List Nat, ∀ e, 36 ≤ b.length → Script.from_bytes (b.drop 36) = .err e →
      TransactionInput.from_bytes b = .err e) := by
  refine ⟨fun i h32 => ti_enc_length i h32, ?_, ?_, ?_⟩
  · intro b i n h
    obtain ⟨m, hs, hn, _⟩ := ti_ok_inv h
    exact ⟨m, hs, hn⟩
  · intro b e h
    exact ti_step_op_err h
  · intro b e h36 hs
    exact ti_step_script_err (op_dec_ok h36) hs

theorem claim_C7_witness :
    sampleInput.to_bytes.length
      = 36 + (CompactSize.new sampleInput.script_sig.bytes.length).to_bytes.length
        + sampleInput.script_sig.bytes.length + 4 :=
  claim_C7_input_length.1 sampleInput (by decide)

/-- C8: the claim that an unsatisfiable `input_count` always yields an error
(never a partial transaction, never anything else) fails on the code: on a
buffer declaring one input whose script VarInt claims `2 ^ 64 - 1` bytes,
`BitcoinTransaction.from_bytes` propagates the `usize`-overflow panic from
`Script::from_bytes` instead of returning an error. -/
theorem claim_C8_oversized_count_panics :
    BitcoinTransaction.from_bytes
      ([1, 0, 0, 0] ++ [1] ++ List.replicate 32 0 ++ [0, 0, 0, 0]
        ++ [0xFF, 0xFF, 0xFF, 0xFF, 0xFF, 0xFF, 0xFF, 0xFF, 0xFF]) = .panic := by
  decide

/-- C9: whenever any of the four decoders succeeds, the reported consumed
count is at most the length of the buffer it was given, so cursor
advancement never moves past the end. -/
theorem claim_C9_consumed_le :
    (∀ b : List Nat, ∀ cs n, CompactSize.from_bytes b = .ok cs n → n ≤ b.length) ∧
    (∀ b : List Nat, ∀ p n, OutPoint.from_bytes b = .ok p n → n ≤ b.length) ∧
    (∀ b : List Nat, ∀ s n, Script.from_bytes b = .ok s n → n ≤ b.length) ∧
    (∀ b : List Nat, ∀ T n, BitcoinTransaction.from_bytes b = .ok T n → n ≤ b.length) :=
  ⟨fun _ _ _ h => cs_ok_length h,
   fun _ _ _ h => by obtain ⟨rfl, hble⟩ := op_ok_inv h; exact hble,
   fun _ _ _ h => script_ok_length h,
   fun _ _ _ h => tx_ok_length h⟩

theorem claim_C9_witness :
    1 ≤ ([5, 9] : List Nat).length ∧
    36 ≤ (List.replicate 40 (0 : Nat)).length ∧
    3 ≤ ([2, 7, 8, 9] : List Nat).length ∧
    9 ≤ ([1, 0, 0, 0, 0, 0, 0, 0, 0] : List Nat).length :=
  ⟨claim_C9_consumed_le.1 [5, 9] (CompactSize.new 5) 1 (by decide),
   claim_C9_consumed_le.2.1 (List.replicate 40 0)
     (OutPoint.new (List.replicate 32 0) 0) 36 (by decide),
   claim_C9_consumed_le.2.2.1 [2, 7, 8, 9] (Script.new [7, 8]) 3 (by decide),
   claim_C9_consumed_le.2.2.2 [1, 0, 0, 0, 0, 0, 0, 0, 0]
     (BitcoinTransaction.new 1 [] 0) 9 (by decide)⟩

/-- C10: a successful decode depends only on the consumed bytes: appending
any suffix to a buffer on which `CompactSize.from_bytes`,
`Script.from_bytes` or `BitcoinTransaction.from_bytes` succeeds leaves the
decoded value and consumed count unchanged. -/
theorem claim_C10_extension :
    (∀ b s : List Nat, ∀ cs n, CompactSize.from_bytes b = .ok cs n →
      CompactSize.from_bytes (b ++ s) = .ok cs n) ∧
    (∀ b s : List Nat, ∀ scr n, Script.from_bytes b = .ok scr n →
      Script.from_bytes (b ++ s) = .ok scr n) ∧
    (∀ b s : List Nat, ∀ T n, BitcoinTransaction.from_bytes b = .ok T n →
      BitcoinTransaction.from_bytes (b ++ s) = .ok T n) :=
  ⟨fun _ s _ _ h => cs_ok_append s h,
   fun _ s _ _ h => script_ok_append s h,
   fun _ s _ _ h => tx_ok_append s h⟩

theorem claim_C10_witness :
    CompactSize.from_bytes ([0xFD, 5, 0] ++ [1, 2, 3]) = .ok (CompactSize.new 5) 3 ∧
    Script.from_bytes ([2, 7, 8] ++ [9]) = .ok (Script.new [7, 8]) 3 ∧
    BitcoinTransaction.from_bytes ([1, 0, 0, 0, 0, 0, 0, 0, 0] ++ [42])
      = .ok (BitcoinTransaction.new 1 [] 0) 9 :=
  ⟨claim_C10_extension.1 [0xFD, 5, 0] [1, 2, 3] (CompactSize.new 5) 3 (by decide),
   claim_C10_extension.2.1 [2, 7, 8] [9] (Script.new [7, 8]) 3 (by decide),
   claim_C10_extension.2.2 [1, 0, 0, 0, 0, 0, 0, 0, 0] [42]
     (BitcoinTransaction.new 1 [] 0) 9 (by decide)⟩
